import Mathlib

/-!
# Verification of the incremental reconciliation core (cereon-demo)

This file embeds, as executable Lean definitions, the data-reconciliation
logic of the dashboard widgets:

* `TableCard.mergedRows` — merging incoming record batches into a canonical
  keyed collection, either fresh (HTTP / snapshot mode) or on top of the
  persisted collection (streaming / accumulate mode);
* the persistence effect that rebuilds the key→row map and suppresses the
  storage write when the JSON serialization is unchanged;
* the page-clamp effect, the pagination slice, and the final key-based
  deduplication pass over the visible rows;
* `AreaChartComponent`'s per-series dedupe-by-time and sort.

JavaScript dynamic values are modelled by `JVal` (the JSON-style primitive
values the rows carry); a JS object is modelled as its insertion-ordered
association list of fields, which is exactly what both the `Map` used by the
HTTP branch and the plain-object accumulator used by the streaming branch
preserve.  `JSON.stringify` is modelled by `sItem`/`sColl` below.
-/

set_option maxHeartbeats 1000000

namespace Cereon

/-- A dynamic (JSON-style) primitive value carried by a row field. -/
inductive JVal where
  | null : JVal
  | bool : Bool → JVal
  | num : Int → JVal
  | str : String → JVal
  deriving DecidableEq, Repr

/-- A row (`Record<string, any>`): a JS object, i.e. its insertion-ordered
field list. -/
abbrev Item := List (String × JVal)

/-- The canonical collection: a key→row map, modelled (like the JS `Map` of
the HTTP branch and the accumulator object of the streaming branch) as an
insertion-ordered association list. -/
abbrev Collection := List (String × Item)

/-- The keys of an association list, in order. -/
def keys {α : Type _} (m : List (String × α)) : List String :=
  m.map Prod.fst

/-- JS property read `m[k]` / `map.get(k)`: first matching entry. -/
def objGet {α : Type _} : List (String × α) → String → Option α
  | [], _ => none
  | (k', v) :: rest, k => if k' = k then some v else objGet rest k

/-- JS property write `m[k] = v` / `map.set(k, v)`: replaces the value at an
existing key in place (the key keeps its position), otherwise appends. -/
def objUpsert {α : Type _} : List (String × α) → String → α → List (String × α)
  | [], k, v => [(k, v)]
  | (k', v') :: rest, k, v =>
      if k' = k then (k, v) :: rest else (k', v') :: objUpsert rest k v

@[simp] theorem keys_nil {α : Type _} : keys ([] : List (String × α)) = [] := rfl

@[simp] theorem keys_cons {α : Type _} (p : String × α) (m : List (String × α)) :
    keys (p :: m) = p.1 :: keys m := rfl

@[simp] theorem objGet_nil {α : Type _} (k : String) :
    objGet ([] : List (String × α)) k = none := rfl

theorem objGet_upsert_self {α : Type _} (m : List (String × α)) (k : String) (v : α) :
    objGet (objUpsert m k v) k = some v := by
  induction m with
  | nil => simp [objUpsert, objGet]
  | cons p rest ih =>
      obtain ⟨k', v'⟩ := p
      by_cases h : k' = k
      · simp [objUpsert, h, objGet]
      · simp [objUpsert, h, objGet, ih]

theorem objGet_upsert_other {α : Type _} (m : List (String × α)) {k k' : String} (v : α)
    (h : k' ≠ k) : objGet (objUpsert m k v) k' = objGet m k' := by
  induction m with
  | nil => simp [objUpsert, objGet, Ne.symm h]
  | cons p rest ih =>
      obtain ⟨k₀, v₀⟩ := p
      by_cases h₀ : k₀ = k
      · subst h₀
        simp [objUpsert, objGet, Ne.symm h]
      · simp [objUpsert, h₀, objGet, ih]

theorem keys_upsert_of_mem {α : Type _} {m : List (String × α)} {k : String} (v : α)
    (h : k ∈ keys m) : keys (objUpsert m k v) = keys m := by
  induction m with
  | nil => simp at h
  | cons p rest ih =>
      obtain ⟨k₀, v₀⟩ := p
      by_cases h₀ : k₀ = k
      · subst h₀; simp [objUpsert]
      · rw [keys_cons, List.mem_cons] at h
        rcases h with h | h
        · exact absurd h.symm h₀
        · simp [objUpsert, h₀, ih h]

theorem keys_upsert_of_not_mem {α : Type _} {m : List (String × α)} {k : String} (v : α)
    (h : k ∉ keys m) : keys (objUpsert m k v) = keys m ++ [k] := by
  induction m with
  | nil => simp [objUpsert]
  | cons p rest ih =>
      obtain ⟨k₀, v₀⟩ := p
      rw [keys_cons, List.mem_cons] at h
      push_neg at h
      simp [objUpsert, Ne.symm h.1, ih h.2]

theorem mem_keys_upsert {α : Type _} (m : List (String × α)) (k k' : String) (v : α) :
    k' ∈ keys (objUpsert m k v) ↔ k' ∈ keys m ∨ k' = k := by
  by_cases h : k ∈ keys m
  · rw [keys_upsert_of_mem v h]
    constructor
    · exact Or.inl
    · rintro (hh | rfl)
      · exact hh
      · exact h
  · rw [keys_upsert_of_not_mem v h]
    simp

theorem nodup_keys_upsert {α : Type _} {m : List (String × α)} (k : String) (v : α)
    (h : (keys m).Nodup) : (keys (objUpsert m k v)).Nodup := by
  by_cases hk : k ∈ keys m
  · rwa [keys_upsert_of_mem v hk]
  · rw [keys_upsert_of_not_mem v hk]
    refine List.Nodup.append h (List.nodup_singleton k) ?_
    intro a ha hb
    rw [List.mem_singleton] at hb
    subst hb
    exact hk ha

theorem objGet_eq_none_iff {α : Type _} (m : List (String × α)) (k : String) :
    objGet m k = none ↔ k ∉ keys m := by
  induction m with
  | nil => simp
  | cons p rest ih =>
      obtain ⟨k₀, v₀⟩ := p
      by_cases h₀ : k₀ = k
      · subst h₀; simp [objGet]
      · simp [objGet, h₀, ih, Ne.symm h₀]

/-- Association lists with duplicate-free keys are determined by their key
sequence and their lookups. -/
theorem objExt {α : Type _} : ∀ {m₁ m₂ : List (String × α)},
    (keys m₁).Nodup → keys m₁ = keys m₂ →
    (∀ k, objGet m₁ k = objGet m₂ k) → m₁ = m₂
  | [], [], _, _, _ => rfl
  | [], (k, v) :: _, _, hk, _ => by simp at hk
  | (k, v) :: _, [], _, hk, _ => by simp at hk
  | (k₁, v₁) :: m₁, (k₂, v₂) :: m₂, hnd, hk, hget => by
      simp only [keys_cons, List.cons.injEq] at hk
      obtain ⟨rfl, hktail⟩ := hk
      have hv : v₁ = v₂ := by
        have := hget k₁
        simpa [objGet] using this
      have hnd' : (keys m₁).Nodup := (List.nodup_cons.mp hnd).2
      have hknotin : k₁ ∉ keys m₁ := (List.nodup_cons.mp hnd).1
      have htail : m₁ = m₂ := by
        refine objExt hnd' hktail (fun k => ?_)
        by_cases h : k = k₁
        · subst h
          have h₁ : objGet m₁ k = none := (objGet_eq_none_iff _ _).mpr hknotin
          have h₂ : objGet m₂ k = none := by
            rw [objGet_eq_none_iff, ← hktail]
            exact hknotin
          rw [h₁, h₂]
        · have := hget k
          simpa [objGet, Ne.symm h] using this
      simp [htail, hv]

/-! ## Generic keyed accumulation

Every accumulation loop in the source ("for each `x`, compute a key and
write an updated value into the map at that key") is an instance of
`applyAll`: the table reconciler, the persistence-map rebuild, and the
chart's dedupe-by-time all fold `objUpsert` over a list. -/

/-- Fold a list into an association map: for each `x`, compute its key `kf x`
and store `upd (current entry) x` there. -/
def applyAll {α β : Type _} (kf : β → String) (upd : Option α → β → α)
    (m : List (String × α)) (xs : List β) : List (String × α) :=
  xs.foldl (fun m x => objUpsert m (kf x) (upd (objGet m (kf x)) x)) m

@[simp] theorem applyAll_nil {α β : Type _} (kf : β → String) (upd : Option α → β → α)
    (m : List (String × α)) : applyAll kf upd m [] = m := rfl

theorem applyAll_cons {α β : Type _} (kf : β → String) (upd : Option α → β → α)
    (m : List (String × α)) (x : β) (xs : List β) :
    applyAll kf upd m (x :: xs) =
      applyAll kf upd (objUpsert m (kf x) (upd (objGet m (kf x)) x)) xs := rfl

theorem applyAll_append {α β : Type _} (kf : β → String) (upd : Option α → β → α)
    (m : List (String × α)) (xs ys : List β) :
    applyAll kf upd m (xs ++ ys) = applyAll kf upd (applyAll kf upd m xs) ys :=
  List.foldl_append _ _ _ _

theorem mem_keys_applyAll {α β : Type _} (kf : β → String) (upd : Option α → β → α)
    (m : List (String × α)) (xs : List β) (k : String) :
    k ∈ keys (applyAll kf upd m xs) ↔ k ∈ keys m ∨ k ∈ xs.map kf := by
  induction xs generalizing m with
  | nil => simp
  | cons x rest ih =>
      rw [applyAll_cons, ih]
      rw [mem_keys_upsert]
      simp only [List.map_cons, List.mem_cons]
      tauto

theorem keys_applyAll_of_mem {α β : Type _} (kf : β → String) (upd : Option α → β → α)
    {m : List (String × α)} {xs : List β}
    (h : ∀ x ∈ xs, kf x ∈ keys m) :
    keys (applyAll kf upd m xs) = keys m := by
  induction xs generalizing m with
  | nil => rfl
  | cons x rest ih =>
      rw [applyAll_cons]
      have hx : kf x ∈ keys m := h x (List.mem_cons_self _ _)
      have hkeys : keys (objUpsert m (kf x) (upd (objGet m (kf x)) x)) = keys m :=
        keys_upsert_of_mem _ hx
      rw [ih (fun y hy => by rw [hkeys]; exact h y (List.mem_cons_of_mem _ hy)), hkeys]

theorem nodup_keys_applyAll {α β : Type _} (kf : β → String) (upd : Option α → β → α)
    {m : List (String × α)} (xs : List β) (h : (keys m).Nodup) :
    (keys (applyAll kf upd m xs)).Nodup := by
  induction xs generalizing m with
  | nil => exact h
  | cons x rest ih =>
      rw [applyAll_cons]
      exact ih (nodup_keys_upsert _ _ h)

/-- The entry stored at `k` after an `applyAll` pass: the fold of the updater
over exactly those `x`s whose key is `k`, started from the previous entry. -/
theorem objGet_applyAll {α β : Type _} (kf : β → String) (upd : Option α → β → α)
    (m : List (String × α)) (xs : List β) (k : String) :
    objGet (applyAll kf upd m xs) k =
      (xs.filter (fun x => kf x = k)).foldl (fun e x => some (upd e x)) (objGet m k) := by
  induction xs generalizing m with
  | nil => rfl
  | cons x rest ih =>
      rw [applyAll_cons, ih]
      by_cases hx : kf x = k
      · subst hx
        rw [objGet_upsert_self]
        simp [List.filter_cons]
      · rw [objGet_upsert_other _ _ (Ne.symm hx)]
        simp [List.filter_cons, hx]

/-! ## Canonical string forms

`String(x)` (JS string coercion, used on the index-column value) and
`JSON.stringify` (used for the fallback key and for the persistence
comparison) over the `JVal` universe.  Numbers are serialized in decimal via
a fuel-indexed digit loop (`natDigits`), strings with `"`/`\` escaping. -/

/-- The character for a single decimal digit. -/
def digitCh (d : Nat) : Char := Char.ofNat (48 + d)

/-- Numeric value of a decimal digit character. -/
def charVal (c : Char) : Nat := c.toNat - 48

/-- Decimal digit characters `'0'..'9'`. -/
def isDigitCh (c : Char) : Bool := 48 ≤ c.toNat && c.toNat ≤ 57

/-- Decimal digits of `n`, most significant first (`fuel` bounds the
recursion depth; any `fuel > n` is enough). -/
def natDigits : Nat → Nat → List Char
  | 0, _ => []
  | fuel + 1, n =>
      if n < 10 then [digitCh n] else natDigits fuel (n / 10) ++ [digitCh (n % 10)]

/-- Decimal representation of a natural number. -/
def natStr (n : Nat) : List Char := natDigits (n + 1) n

/-- `String(n)` for an integer-valued JS number. -/
def intStr (n : Int) : List Char :=
  if n < 0 then '-' :: natStr (-n).toNat else natStr n.toNat

/-- JSON string escaping (`"` and `\` are escaped with a backslash). -/
def escStr : List Char → List Char
  | [] => []
  | c :: cs => if c = '"' ∨ c = '\\' then '\\' :: c :: escStr cs else c :: escStr cs

/-- The keyword `null` as characters. -/
def kwNull : List Char := 'n' :: 'u' :: ['l', 'l']

/-- The keyword `true` as characters. -/
def kwTrue : List Char := 't' :: 'r' :: ['u', 'e']

/-- The keyword `false` as characters. -/
def kwFalse : List Char := 'f' :: 'a' :: ['l', 's', 'e']

/-- `JSON.stringify` of a primitive value. -/
def sVal : JVal → List Char
  | .null => kwNull
  | .bool b => if b then kwTrue else kwFalse
  | .num n => intStr n
  | .str s => '"' :: escStr s.data ++ ['"']

/-- `JSON.stringify` of the fields of an object, given a serializer for the
values: `"key":value` entries joined by commas. -/
def sFieldsGen {α : Type _} (sv : α → List Char) : List (String × α) → List Char
  | [] => []
  | [(k, v)] => '"' :: escStr k.data ++ ['"', ':'] ++ sv v
  | (k, v) :: rest =>
      ('"' :: escStr k.data ++ ['"', ':'] ++ sv v) ++ ',' :: sFieldsGen sv rest

/-- `JSON.stringify` of an object, given a serializer for the values. -/
def sObjGen {α : Type _} (sv : α → List Char) (m : List (String × α)) : List Char :=
  '{' :: sFieldsGen sv m ++ ['}']

/-- `JSON.stringify(row)` for a row. -/
def sItem (it : Item) : List Char := sObjGen sVal it

/-- `JSON.stringify(map)` for a key→row map. -/
def sColl (m : Collection) : List Char := sObjGen sItem m

/-- `JSON.stringify(row)` as a `String`. -/
def stringifyItem (it : Item) : String := String.mk (sItem it)

/-- `JSON.stringify(map)` as a `String`. -/
def stringifyColl (m : Collection) : String := String.mk (sColl m)

/-- `String(v)`: JS string coercion of a primitive value. -/
def jsToString : JVal → String
  | .null => "null"
  | .bool true => "true"
  | .bool false => "false"
  | .num n => String.mk (intStr n)
  | .str s => s

/-! ## Key extraction and the reconciler (`TableCard.mergedRows`) -/

/-- Key computation of `TableCard.mergedRows`: `String(row[indexColumn])`
when that field is present and not null, else `JSON.stringify(row)`. -/
def keyOf (idx : String) (row : Item) : String :=
  match objGet row idx with
  | some v => if v = .null then stringifyItem row else jsToString v
  | none => stringifyItem row

/-- The JS object spread `{...a, ...b}`: fields of `b` overwrite same-named
fields of `a` in place; fresh fields of `b` are appended in order. -/
def mergeFields (a b : Item) : Item :=
  applyAll Prod.fst (fun _ p => p.2) a b

/-- One iteration of the merge loop:
`merged[key] = { ...(merged[key] || {}), ...row }`. -/
def stepRow (idx : String) (m : Collection) (row : Item) : Collection :=
  objUpsert m (keyOf idx row)
    (mergeFields ((objGet m (keyOf idx row)).getD []) row)

/-- The merge loop of `TableCard.mergedRows` over a flat list of rows,
starting from collection `m`. -/
def reconcile (idx : String) (m : Collection) (rows : List Item) : Collection :=
  applyAll (keyOf idx) (fun e row => mergeFields (e.getD []) row) m rows

theorem reconcile_eq_foldl (idx : String) (m : Collection) (rows : List Item) :
    reconcile idx m rows = rows.foldl (stepRow idx) m := rfl

/-- The `rows` field of an incoming record (`rec.rows`): it may be absent,
null, some non-array value, or an actual array of rows. -/
inductive RowsField where
  | missing : RowsField
  | nullv : RowsField
  | notArray : RowsField
  | arr : List Item → RowsField
  deriving DecidableEq, Repr

/-- The guard `Array.isArray(rec.rows) ? rec.rows : []` applied to a record. -/
def extractRows : RowsField → List Item
  | .arr rs => rs
  | _ => []

/-- Whether a record's `rows` field is an actual array. -/
def rowsWellFormed : RowsField → Bool
  | .arr _ => true
  | _ => false

/-- All rows contributed by the current records, in arrival order. -/
def allRows (recs : List RowsField) : List Item :=
  (recs.map extractRows).flatten

/-- The HTTP (snapshot) branch of `TableCard.mergedRows`: a fresh `Map`
built from the current records only. -/
def mergedMapHttp (idx : String) (recs : List RowsField) : Collection :=
  reconcile idx [] (allRows recs)

/-- The streaming (accumulate) branch of `TableCard.mergedRows`: the current
records merged into the persisted collection. -/
def mergedMapStreaming (idx : String) (prev : Collection) (recs : List RowsField) :
    Collection :=
  reconcile idx prev (allRows recs)

/-- `TableCard.mergedRows`: the enumerated values of the merged map.
(The JS `Map` of the HTTP branch enumerates in insertion order;
`Object.values` of the streaming accumulator is modelled the same way.) -/
def mergedRows (idx : String) (isHttp : Bool) (prev : Collection)
    (recs : List RowsField) : List Item :=
  if isHttp then (mergedMapHttp idx recs).map Prod.snd
  else (mergedMapStreaming idx prev recs).map Prod.snd

/-! ## Injectivity of the canonical serialization

The fallback key is `JSON.stringify(row)`, so the key-determinism claim
reduces to injectivity of the serialization.  We prove unique decodability:
each serialized form followed by a suitable boundary character determines
its value and the remainder. -/

theorem charVal_digitCh {d : Nat} (h : d < 10) : charVal (digitCh d) = d := by
  interval_cases d <;> decide

theorem isDigitCh_digitCh {d : Nat} (h : d < 10) : isDigitCh (digitCh d) = true := by
  interval_cases d <;> decide

theorem fromDigits_natDigits :
    ∀ fuel n, n < fuel →
      (natDigits fuel n).foldl (fun a c => a * 10 + charVal c) 0 = n := by
  intro fuel
  induction fuel with
  | zero => intro n h; omega
  | succ fuel ih =>
      intro n h
      rw [natDigits]
      by_cases h10 : n < 10
      · simp [h10, charVal_digitCh h10]
      · rw [if_neg h10, List.foldl_append]
        have hdiv : n / 10 < fuel := by
          have h1 : n / 10 < n := Nat.div_lt_self (by omega) (by omega)
          omega
        rw [ih _ hdiv]
        simp only [List.foldl_cons, List.foldl_nil]
        rw [charVal_digitCh (Nat.mod_lt _ (by omega))]
        omega

theorem natStr_inj {m n : Nat} (h : natStr m = natStr n) : m = n := by
  have hm := fromDigits_natDigits (m + 1) m (Nat.lt_succ_self m)
  have hn := fromDigits_natDigits (n + 1) n (Nat.lt_succ_self n)
  rw [natStr] at h
  rw [← hm, ← hn, h, natStr]

theorem natDigits_all_digit :
    ∀ fuel n, ∀ c ∈ natDigits fuel n, isDigitCh c = true := by
  intro fuel
  induction fuel with
  | zero => intro n c hc; simp [natDigits] at hc
  | succ fuel ih =>
      intro n c hc
      rw [natDigits] at hc
      by_cases h10 : n < 10
      · rw [if_pos h10, List.mem_singleton] at hc
        subst hc
        exact isDigitCh_digitCh h10
      · rw [if_neg h10, List.mem_append] at hc
        rcases hc with hc | hc
        · exact ih _ _ hc
        · rw [List.mem_singleton] at hc
          subst hc
          exact isDigitCh_digitCh (Nat.mod_lt _ (by omega))

theorem natStr_ne_nil (n : Nat) : natStr n ≠ [] := by
  rw [natStr, natDigits]
  by_cases h10 : n < 10
  · simp [h10]
  · simp [h10]

theorem natStr_head (n : Nat) :
    ∃ c cs, natStr n = c :: cs ∧ isDigitCh c = true := by
  rcases List.exists_cons_of_ne_nil (natStr_ne_nil n) with ⟨c, cs, hc⟩
  exact ⟨c, cs, hc, natDigits_all_digit _ _ c (hc ▸ List.mem_cons_self c cs)⟩

theorem intStr_head (n : Int) :
    ∃ c cs, intStr n = c :: cs ∧ (c = '-' ∨ isDigitCh c = true) := by
  rw [intStr]
  by_cases hn : n < 0
  · exact ⟨'-', _, by rw [if_pos hn], Or.inl rfl⟩
  · rcases natStr_head n.toNat with ⟨c, cs, hc, hd⟩
    exact ⟨c, cs, by rw [if_neg hn, hc], Or.inr hd⟩

/-- A maximal digit run followed by a non-digit boundary is uniquely
decodable. -/
theorem digit_run_unique :
    ∀ (l₁ l₂ : List Char) (c₁ c₂ : Char) (r₁ r₂ : List Char),
      (∀ c ∈ l₁, isDigitCh c = true) → (∀ c ∈ l₂, isDigitCh c = true) →
      isDigitCh c₁ = false → isDigitCh c₂ = false →
      l₁ ++ c₁ :: r₁ = l₂ ++ c₂ :: r₂ → l₁ = l₂ ∧ c₁ = c₂ ∧ r₁ = r₂ := by
  intro l₁
  induction l₁ with
  | nil =>
      intro l₂ c₁ c₂ r₁ r₂ _ hl₂ hc₁ hc₂ heq
      cases l₂ with
      | nil => simpa using heq
      | cons d l₂' =>
          exfalso
          have hd : isDigitCh d = true := hl₂ d (List.mem_cons_self _ _)
          simp only [List.nil_append, List.cons_append, List.cons.injEq] at heq
          rw [heq.1] at hc₁
          rw [hc₁] at hd
          exact Bool.false_ne_true hd
  | cons d l₁' ih =>
      intro l₂ c₁ c₂ r₁ r₂ hl₁ hl₂ hc₁ hc₂ heq
      cases l₂ with
      | nil =>
          exfalso
          have hd : isDigitCh d = true := hl₁ d (List.mem_cons_self _ _)
          simp only [List.cons_append, List.nil_append, List.cons.injEq] at heq
          rw [← heq.1] at hc₂
          rw [hc₂] at hd
          exact Bool.false_ne_true hd
      | cons d₂ l₂' =>
          simp only [List.cons_append, List.cons.injEq] at heq
          obtain ⟨rfl, htail⟩ := heq
          obtain ⟨h₁, h₂, h₃⟩ := ih l₂' c₁ c₂ r₁ r₂
            (fun c hc => hl₁ c (List.mem_cons_of_mem _ hc))
            (fun c hc => hl₂ c (List.mem_cons_of_mem _ hc)) hc₁ hc₂ htail
          exact ⟨by rw [h₁], h₂, h₃⟩

/-- `String(n)` for integers followed by a non-digit, non-minus boundary is
uniquely decodable. -/
theorem intStr_unique {m n : Int} {c₁ c₂ : Char} {r₁ r₂ : List Char}
    (hc₁ : isDigitCh c₁ = false) (hc₂ : isDigitCh c₂ = false)
    (heq : intStr m ++ c₁ :: r₁ = intStr n ++ c₂ :: r₂) :
    m = n ∧ c₁ = c₂ ∧ r₁ = r₂ := by
  rw [intStr, intStr] at heq
  by_cases hm : m < 0 <;> by_cases hn : n < 0
  · rw [if_pos hm, if_pos hn] at heq
    simp only [List.cons_append, List.cons.injEq, true_and] at heq
    obtain ⟨hs, hc, hr⟩ := digit_run_unique _ _ _ _ _ _
      (natDigits_all_digit _ _) (natDigits_all_digit _ _) hc₁ hc₂ heq
    refine ⟨?_, hc, hr⟩
    have := natStr_inj hs
    omega
  · exfalso
    rw [if_pos hm, if_neg hn] at heq
    rcases natStr_head n.toNat with ⟨c, cs, hc, hd⟩
    rw [hc] at heq
    simp only [List.cons_append, List.cons.injEq] at heq
    rw [← heq.1] at hd
    simp [isDigitCh] at hd
  · exfalso
    rw [if_neg hm, if_pos hn] at heq
    rcases natStr_head m.toNat with ⟨c, cs, hc, hd⟩
    rw [hc] at heq
    simp only [List.cons_append, List.cons.injEq] at heq
    rw [heq.1] at hd
    simp [isDigitCh] at hd
  · rw [if_neg hm, if_neg hn] at heq
    obtain ⟨hs, hc, hr⟩ := digit_run_unique _ _ _ _ _ _
      (natDigits_all_digit _ _) (natDigits_all_digit _ _) hc₁ hc₂ heq
    refine ⟨?_, hc, hr⟩
    have := natStr_inj hs
    omega

/-- Escaped string content followed by the closing quote is uniquely
decodable. -/
theorem escStr_unique :
    ∀ (s₁ s₂ r₁ r₂ : List Char),
      escStr s₁ ++ '"' :: r₁ = escStr s₂ ++ '"' :: r₂ → s₁ = s₂ ∧ r₁ = r₂ := by
  intro s₁
  induction s₁ with
  | nil =>
      intro s₂ r₁ r₂ heq
      cases s₂ with
      | nil => simpa using heq
      | cons c cs =>
          exfalso
          simp only [escStr] at heq
          by_cases hc : c = '"' ∨ c = '\\'
          · rw [if_pos hc] at heq
            simp only [escStr, List.nil_append, List.cons_append, List.cons.injEq] at heq
            exact absurd heq.1 (by decide)
          · rw [if_neg hc] at heq
            simp only [escStr, List.nil_append, List.cons_append, List.cons.injEq] at heq
            push_neg at hc
            exact hc.1 heq.1.symm
  | cons c₁ cs₁ ih =>
      intro s₂ r₁ r₂ heq
      cases s₂ with
      | nil =>
          exfalso
          simp only [escStr] at heq
          by_cases hc : c₁ = '"' ∨ c₁ = '\\'
          · rw [if_pos hc] at heq
            simp only [escStr, List.nil_append, List.cons_append, List.cons.injEq] at heq
            exact absurd heq.1.symm (by decide)
          · rw [if_neg hc] at heq
            simp only [escStr, List.nil_append, List.cons_append, List.cons.injEq] at heq
            push_neg at hc
            exact hc.1 heq.1
      | cons c₂ cs₂ =>
          simp only [escStr] at heq
          by_cases h₁ : c₁ = '"' ∨ c₁ = '\\' <;> by_cases h₂ : c₂ = '"' ∨ c₂ = '\\'
          · rw [if_pos h₁, if_pos h₂] at heq
            simp only [List.cons_append, List.cons.injEq] at heq
            obtain ⟨-, rfl, htail⟩ := heq
            obtain ⟨hs, hr⟩ := ih cs₂ r₁ r₂ htail
            exact ⟨by rw [hs], hr⟩
          · exfalso
            rw [if_pos h₁, if_neg h₂] at heq
            simp only [List.cons_append, List.cons.injEq] at heq
            push_neg at h₂
            exact h₂.2 heq.1.symm
          · exfalso
            rw [if_neg h₁, if_pos h₂] at heq
            simp only [List.cons_append, List.cons.injEq] at heq
            push_neg at h₁
            exact h₁.2 heq.1
          · rw [if_neg h₁, if_neg h₂] at heq
            simp only [List.cons_append, List.cons.injEq] at heq
            obtain ⟨rfl, htail⟩ := heq
            obtain ⟨hs, hr⟩ := ih cs₂ r₁ r₂ htail
            exact ⟨by rw [hs], hr⟩

/-- Boundary characters that may legally follow a serialized value inside an
object: the field separator or the closing brace. -/
def valBoundary (c : Char) : Prop := c = ',' ∨ c = '}'

theorem valBoundary_not_digit {c : Char} (h : valBoundary c) : isDigitCh c = false := by
  rcases h with rfl | rfl <;> decide

/-- A serialized primitive value followed by a boundary character is
uniquely decodable. -/
theorem sVal_unique :
    ∀ (v₁ v₂ : JVal) (c₁ c₂ : Char) (r₁ r₂ : List Char),
      valBoundary c₁ → valBoundary c₂ →
      sVal v₁ ++ c₁ :: r₁ = sVal v₂ ++ c₂ :: r₂ →
      v₁ = v₂ ∧ c₁ :: r₁ = c₂ :: r₂ := by
  have hnum : ∀ (x : Char) (l : List Char) (n : Int) (r : List Char),
      x ≠ '-' → isDigitCh x = false → x :: l ≠ intStr n ++ r := by
    intro x l n r hx hd heq
    rcases intStr_head n with ⟨c, cs, hc, hcd⟩
    rw [hc] at heq
    simp only [List.cons_append, List.cons.injEq] at heq
    rcases hcd with rfl | hcd
    · exact hx heq.1
    · rw [heq.1] at hd
      rw [hd] at hcd
      exact Bool.false_ne_true hcd
  intro v₁ v₂ c₁ c₂ r₁ r₂ hb₁ hb₂ heq
  cases v₁ with
  | null =>
      cases v₂ with
      | null =>
          simp only [sVal, kwNull, List.cons_append, List.nil_append,
            List.cons.injEq, true_and] at heq
          exact ⟨rfl, by simp [heq]⟩
      | bool b => cases b <;> simp [sVal, kwNull, kwTrue, kwFalse] at heq
      | num n =>
          exact absurd heq (by simpa [sVal, kwNull, kwTrue, kwFalse] using hnum 'n' _ n _ (by decide) (by decide))
      | str s => simp [sVal, kwNull, kwTrue, kwFalse] at heq
  | bool b =>
      cases v₂ with
      | null => cases b <;> simp [sVal, kwNull, kwTrue, kwFalse] at heq
      | bool b₂ =>
          cases b <;> cases b₂ <;>
            simp only [sVal, kwTrue, kwFalse, List.cons_append, List.nil_append,
              List.cons.injEq, true_and] at heq <;>
            simp_all
      | num n =>
          cases b
          · exact absurd heq (by simpa [sVal, kwNull, kwTrue, kwFalse] using hnum 'f' _ n _ (by decide) (by decide))
          · exact absurd heq (by simpa [sVal, kwNull, kwTrue, kwFalse] using hnum 't' _ n _ (by decide) (by decide))
      | str s => cases b <;> simp [sVal, kwNull, kwTrue, kwFalse] at heq
  | num n =>
      cases v₂ with
      | null =>
          exact absurd heq.symm
            (by simpa [sVal, kwNull, kwTrue, kwFalse] using hnum 'n' _ n _ (by decide) (by decide))
      | bool b =>
          cases b
          · exact absurd heq.symm
              (by simpa [sVal, kwNull, kwTrue, kwFalse] using hnum 'f' _ n _ (by decide) (by decide))
          · exact absurd heq.symm
              (by simpa [sVal, kwNull, kwTrue, kwFalse] using hnum 't' _ n _ (by decide) (by decide))
      | num n₂ =>
          simp only [sVal] at heq
          obtain ⟨hn, hc, hr⟩ := intStr_unique (valBoundary_not_digit hb₁)
            (valBoundary_not_digit hb₂) heq
          exact ⟨by rw [hn], by rw [hc, hr]⟩
      | str s =>
          exact absurd heq.symm
            (by simpa [sVal, kwNull, kwTrue, kwFalse] using hnum '"' _ n _ (by decide) (by decide))
  | str s =>
      cases v₂ with
      | null => simp [sVal, kwNull, kwTrue, kwFalse] at heq
      | bool b => cases b <;> simp [sVal, kwNull, kwTrue, kwFalse] at heq
      | num n =>
          exact absurd heq (by simpa [sVal, kwNull, kwTrue, kwFalse] using hnum '"' _ n _ (by decide) (by decide))
      | str s₂ =>
          simp only [sVal, List.cons_append, List.append_assoc,
            List.singleton_append, List.cons.injEq, true_and] at heq
          obtain ⟨hs, hr⟩ := escStr_unique _ _ _ _ heq
          refine ⟨?_, hr⟩
          cases s; cases s₂
          simp_all

@[simp] theorem sFieldsGen_nil {α : Type _} (sv : α → List Char) :
    sFieldsGen sv [] = [] := rfl

theorem sFieldsGen_single {α : Type _} (sv : α → List Char) (k : String) (v : α) :
    sFieldsGen sv [(k, v)] = '"' :: escStr k.data ++ ['"', ':'] ++ sv v := rfl

theorem sFieldsGen_cons₂ {α : Type _} (sv : α → List Char) (k : String) (v : α)
    (p : String × α) (rest : List (String × α)) :
    sFieldsGen sv ((k, v) :: p :: rest) =
      ('"' :: escStr k.data ++ ['"', ':'] ++ sv v) ++ ',' :: sFieldsGen sv (p :: rest) :=
  rfl

theorem sFieldsGen_cons_head {α : Type _} (sv : α → List Char) (k : String) (v : α)
    (rest : List (String × α)) :
    ∃ t, sFieldsGen sv ((k, v) :: rest) = '"' :: t := by
  cases rest with
  | nil => exact ⟨_, rfl⟩
  | cons p ps => exact ⟨_, rfl⟩

/-- A single serialized `"key":value` entry followed by its tail is uniquely
decodable, given unique decodability of the value serializer. -/
theorem sEntry_unique {α : Type _} (sv : α → List Char)
    (hsv : ∀ (v₁ v₂ : α) (c₁ c₂ : Char) (r₁ r₂ : List Char),
      valBoundary c₁ → valBoundary c₂ →
      sv v₁ ++ c₁ :: r₁ = sv v₂ ++ c₂ :: r₂ → v₁ = v₂ ∧ c₁ :: r₁ = c₂ :: r₂)
    (k₁ k₂ : String) (v₁ v₂ : α) (b₁ b₂ : Char) (t₁ t₂ : List Char)
    (hb₁ : valBoundary b₁) (hb₂ : valBoundary b₂)
    (heq : escStr k₁.data ++ '"' :: ':' :: (sv v₁ ++ b₁ :: t₁) =
           escStr k₂.data ++ '"' :: ':' :: (sv v₂ ++ b₂ :: t₂)) :
    k₁ = k₂ ∧ v₁ = v₂ ∧ b₁ :: t₁ = b₂ :: t₂ := by
  obtain ⟨hk, htail⟩ := escStr_unique _ _ _ _ heq
  simp only [List.cons.injEq, true_and] at htail
  obtain ⟨hv, hrest⟩ := hsv v₁ v₂ b₁ b₂ t₁ t₂ hb₁ hb₂ htail
  refine ⟨?_, hv, hrest⟩
  cases k₁; cases k₂
  simp_all

/-- The serialized field list of an object, followed by the closing brace,
is uniquely decodable. -/
theorem sFieldsGen_unique {α : Type _} (sv : α → List Char)
    (hsv : ∀ (v₁ v₂ : α) (c₁ c₂ : Char) (r₁ r₂ : List Char),
      valBoundary c₁ → valBoundary c₂ →
      sv v₁ ++ c₁ :: r₁ = sv v₂ ++ c₂ :: r₂ → v₁ = v₂ ∧ c₁ :: r₁ = c₂ :: r₂) :
    ∀ (m₁ m₂ : List (String × α)) (r₁ r₂ : List Char),
      sFieldsGen sv m₁ ++ '}' :: r₁ = sFieldsGen sv m₂ ++ '}' :: r₂ →
      m₁ = m₂ ∧ r₁ = r₂
  | [], [], r₁, r₂, heq => ⟨rfl, by simpa using heq⟩
  | [], (k, v) :: rest, r₁, r₂, heq => by
      exfalso
      rcases sFieldsGen_cons_head sv k v rest with ⟨t, ht⟩
      rw [ht] at heq
      simp at heq
  | (k, v) :: rest, [], r₁, r₂, heq => by
      exfalso
      rcases sFieldsGen_cons_head sv k v rest with ⟨t, ht⟩
      rw [ht] at heq
      simp at heq
  | [(k₁, v₁)], [(k₂, v₂)], r₁, r₂, heq => by
      rw [sFieldsGen_single, sFieldsGen_single] at heq
      simp only [List.cons_append, List.singleton_append, List.append_assoc,
        List.cons.injEq, true_and] at heq
      obtain ⟨hk, hv, hrest⟩ := sEntry_unique sv hsv k₁ k₂ v₁ v₂ '}' '}' r₁ r₂
        (Or.inr rfl) (Or.inr rfl) heq
      simp only [List.cons.injEq, true_and] at hrest
      exact ⟨by rw [hk, hv], hrest⟩
  | [(k₁, v₁)], (k₂, v₂) :: p₂ :: rest₂, r₁, r₂, heq => by
      exfalso
      rw [sFieldsGen_single, sFieldsGen_cons₂] at heq
      simp only [List.cons_append, List.singleton_append, List.append_assoc,
        List.cons.injEq, true_and] at heq
      obtain ⟨-, -, hrest⟩ := sEntry_unique sv hsv k₁ k₂ v₁ v₂ '}' ','
        r₁ (sFieldsGen sv (p₂ :: rest₂) ++ '}' :: r₂)
        (Or.inr rfl) (Or.inl rfl) heq
      simp at hrest
  | (k₁, v₁) :: p₁ :: rest₁, [(k₂, v₂)], r₁, r₂, heq => by
      exfalso
      rw [sFieldsGen_cons₂, sFieldsGen_single] at heq
      simp only [List.cons_append, List.singleton_append, List.append_assoc,
        List.cons.injEq, true_and] at heq
      obtain ⟨-, -, hrest⟩ := sEntry_unique sv hsv k₁ k₂ v₁ v₂ ',' '}'
        (sFieldsGen sv (p₁ :: rest₁) ++ '}' :: r₁) r₂
        (Or.inl rfl) (Or.inr rfl) heq
      simp at hrest
  | (k₁, v₁) :: p₁ :: rest₁, (k₂, v₂) :: p₂ :: rest₂, r₁, r₂, heq => by
      rw [sFieldsGen_cons₂, sFieldsGen_cons₂] at heq
      simp only [List.cons_append, List.singleton_append, List.append_assoc,
        List.cons.injEq, true_and] at heq
      obtain ⟨hk, hv, hrest⟩ := sEntry_unique sv hsv k₁ k₂ v₁ v₂ ',' ','
        (sFieldsGen sv (p₁ :: rest₁) ++ '}' :: r₁)
        (sFieldsGen sv (p₂ :: rest₂) ++ '}' :: r₂)
        (Or.inl rfl) (Or.inl rfl) heq
      simp only [List.cons.injEq, true_and] at hrest
      obtain ⟨htail, hr⟩ := sFieldsGen_unique sv hsv (p₁ :: rest₁) (p₂ :: rest₂) r₁ r₂ hrest
      exact ⟨by rw [hk, hv, htail], hr⟩

/-- `JSON.stringify` on rows is injective: structurally different rows have
different serializations. -/
theorem sItem_inj {i₁ i₂ : Item} (h : sItem i₁ = sItem i₂) : i₁ = i₂ := by
  unfold sItem sObjGen at h
  injection h with h₁ h₂
  exact (sFieldsGen_unique sVal sVal_unique i₁ i₂ [] [] h₂).1

theorem stringifyItem_inj {i₁ i₂ : Item}
    (h : stringifyItem i₁ = stringifyItem i₂) : i₁ = i₂ := by
  rw [stringifyItem, stringifyItem] at h
  exact sItem_inj (by injection h)

/-! ## Persistence effect, pagination, final dedupe (`TableCard`) -/

/-- The map rebuilt by the persistence effect from the merged rows:
`map[key] = r` for each row, with the same key computation as the merge. -/
def rebuildMap (idx : String) (rows : List Item) : Collection :=
  applyAll (keyOf idx) (fun _ r => r) [] rows

/-- The write-suppression logic of the persistence effect: compare
serialized forms, keep the stored value (no write) when they are equal,
otherwise store the new map (one write).  The boolean records whether an
underlying storage write happened. -/
def save (stored next : Collection) : Collection × Bool :=
  if stringifyColl next = stringifyColl stored then (stored, false) else (next, true)

/-- The complete persistence effect for one render in streaming mode. -/
def persistEffect (idx : String) (stored : Collection) (merged : List Item) :
    Collection × Bool :=
  save stored (rebuildMap idx merged)

/-- `settings?.pageSize || 10` (note `0` is falsy in JS). -/
def pageSizeFallback (settingPageSize : Option Nat) : Nat :=
  match settingPageSize with
  | some s => if s = 0 then 10 else s
  | none => 10

/-- The effective page size: the stored value when it is a positive number,
else the settings value (or 10). -/
def effectivePageSize (storedPageSize : Option Int) (settingPageSize : Option Nat) :
    Nat :=
  match storedPageSize with
  | some n => if 0 < n then n.toNat else pageSizeFallback settingPageSize
  | none => pageSizeFallback settingPageSize

/-- The effective page: the stored value when positive, else 1. -/
def effectivePage (storedPage : Int) : Nat :=
  if 0 < storedPage then storedPage.toNat else 1

/-- `Math.max(1, Math.ceil(count / pageSize))`. -/
def totalPages (count pageSize : Nat) : Nat :=
  max 1 ((count + pageSize - 1) / pageSize)

/-- The page-clamp effect: `if (page > totalPages) setPage(totalPages)`. -/
def clampPage (count pageSize page : Nat) : Nat :=
  if totalPages count pageSize < page then totalPages count pageSize else page

/-- `Array.prototype.slice(s, e)`. -/
def jsSlice {α : Type _} (l : List α) (s e : Nat) : List α :=
  (l.drop s).take (e - s)

/-- `TableCard.visibleRows`: all merged rows when pagination is explicitly
disabled, else the slice `[start, start + pageSize)`. -/
def visibleRows (enablePagination : Option Bool) (page pageSize : Nat)
    (rows : List Item) : List Item :=
  if enablePagination = some false then rows
  else jsSlice rows ((page - 1) * pageSize) ((page - 1) * pageSize + pageSize)

/-- `TableCard.dedupedVisibleRows` as a recursion over the row list carrying
the `seen` key set: first occurrence of each key wins. -/
def dedupeByKeyAux (idx : String) (seen : List String) : List Item → List Item
  | [] => []
  | r :: rest =>
      if keyOf idx r ∈ seen then dedupeByKeyAux idx seen rest
      else r :: dedupeByKeyAux idx (keyOf idx r :: seen) rest

/-- The final defensive dedupe pass over the visible rows. -/
def dedupedVisibleRows (idx : String) (rows : List Item) : List Item :=
  dedupeByKeyAux idx [] rows

/-- Well-formedness of a collection as it exists in the running system:
JS objects cannot carry duplicate keys, so both the collection and each of
its row values have duplicate-free key sequences. -/
def CollWF (m : Collection) : Prop :=
  (keys m).Nodup ∧ ∀ p ∈ m, (keys p.2).Nodup

instance (m : Collection) : Decidable (CollWF m) := by
  unfold CollWF
  infer_instance

/-! ## Replay (idempotence) machinery -/

theorem objGet_mem {α : Type _} {m : List (String × α)} {k : String} {v : α}
    (h : objGet m k = some v) : (k, v) ∈ m := by
  induction m with
  | nil => simp at h
  | cons p rest ih =>
      obtain ⟨k₀, v₀⟩ := p
      by_cases h₀ : k₀ = k
      · subst h₀
        rw [objGet, if_pos rfl] at h
        obtain rfl := Option.some.inj h
        exact List.mem_cons_self _ _
      · rw [objGet, if_neg h₀] at h
        exact List.mem_cons_of_mem _ (ih h)

theorem fieldsWF_of_collWF {m : Collection} (h : CollWF m) (k : String) :
    (keys ((objGet m k).getD [])).Nodup := by
  cases hg : objGet m k with
  | none => simp
  | some v => simpa using h.2 (k, v) (objGet_mem hg)

/-- Replaying the same field-assignment list over an object is a no-op
(structurally): every key is already present with its final value. -/
theorem fieldAssign_replay (e : Item) (P : List (String × JVal))
    (h : (keys e).Nodup) :
    mergeFields (mergeFields e P) P = mergeFields e P := by
  refine objExt ?_ ?_ ?_
  · exact nodup_keys_applyAll _ _ _ (nodup_keys_applyAll _ _ _ h)
  · refine keys_applyAll_of_mem _ _ (fun p hp => ?_)
    exact (mem_keys_applyAll _ _ _ _ _).mpr (Or.inr (List.mem_map_of_mem _ hp))
  · intro k
    show objGet (applyAll Prod.fst (fun _ p => p.2) (mergeFields e P) P) k =
      objGet (mergeFields e P) k
    rw [objGet_applyAll]
    cases hfilt : P.filter (fun p => p.1 = k) with
    | nil => rfl
    | cons x xs =>
        have honce : objGet (mergeFields e P) k =
            (P.filter (fun p => p.1 = k)).foldl
              (fun e x => some ((fun _ p => p.2 : Option JVal → String × JVal → JVal) e x))
              (objGet e k) :=
          objGet_applyAll _ _ _ _ _
        rw [honce, hfilt]
        rw [List.foldl_cons, List.foldl_cons]

/-- `foldl` of the shallow merge over a row list is the single shallow merge
of the flattened field-assignment list. -/
theorem foldl_mergeFields_flatten :
    ∀ (rs : List Item) (a : Item), rs.foldl mergeFields a = mergeFields a rs.flatten := by
  intro rs
  induction rs with
  | nil => intro a; rfl
  | cons r rs ih =>
      intro a
      rw [List.foldl_cons, ih]
      show mergeFields (mergeFields a r) rs.flatten =
        applyAll Prod.fst (fun _ p => p.2) a (r :: rs).flatten
      rw [List.flatten_cons, applyAll_append]
      rfl

theorem mergeFields_replay_foldl (e : Item) (rs : List Item)
    (h : (keys e).Nodup) :
    rs.foldl mergeFields (rs.foldl mergeFields e) = rs.foldl mergeFields e := by
  rw [foldl_mergeFields_flatten, foldl_mergeFields_flatten]
  exact fieldAssign_replay e rs.flatten h

/-- The entry-level view of the reconciler: the entry at `k` is the shallow
merge of all rows keyed `k`, in order, into the previous entry. -/
theorem reconcile_objGet (idx : String) (m : Collection) (rows : List Item)
    (k : String) :
    objGet (reconcile idx m rows) k =
      (rows.filter (fun r => keyOf idx r = k)).foldl
        (fun e r => some (mergeFields (e.getD []) r)) (objGet m k) :=
  objGet_applyAll _ _ _ _ _

theorem foldl_mergeStep_norm :
    ∀ (xs : List Item) (e : Option Item), xs ≠ [] →
      xs.foldl (fun e r => some (mergeFields (e.getD []) r)) e =
        some (xs.foldl mergeFields (e.getD [])) := by
  intro xs
  induction xs with
  | nil => intro e h; exact absurd rfl h
  | cons x xs ih =>
      intro e _
      rw [List.foldl_cons, List.foldl_cons]
      cases hxs : xs with
      | nil => rfl
      | cons y ys =>
          rw [← hxs, ih (some (mergeFields (e.getD []) x)) (by simp [hxs])]
          rfl

/-- Replaying the same row list over an already-reconciled collection is a
structural no-op. -/
theorem reconcile_replay (idx : String) {m : Collection} (rows : List Item)
    (h : CollWF m) :
    reconcile idx (reconcile idx m rows) rows = reconcile idx m rows := by
  refine objExt ?_ ?_ ?_
  · exact nodup_keys_applyAll _ _ _ (nodup_keys_applyAll _ _ _ h.1)
  · refine keys_applyAll_of_mem _ _ (fun r hr => ?_)
    exact (mem_keys_applyAll _ _ _ _ _).mpr (Or.inr (List.mem_map_of_mem _ hr))
  · intro k
    rw [reconcile_objGet, reconcile_objGet]
    cases hfilt : rows.filter (fun r => keyOf idx r = k) with
    | nil => rfl
    | cons x xs =>
        have hne : x :: xs ≠ [] := by simp
        rw [foldl_mergeStep_norm _ _ hne, foldl_mergeStep_norm _ _ hne]
        rw [Option.getD_some]
        congr 1
        exact mergeFields_replay_foldl _ _ (fieldsWF_of_collWF h k)

/-! ## The chart series pipeline (`AreaChartComponent`) -/

/-- A `lightweight-charts` time value: a UTC timestamp (number), a date
string, or a business-day object `{year, month, day}`. -/
inductive TimeVal where
  | num : Int → TimeVal
  | str : String → TimeVal
  | bday : Int → Int → Int → TimeVal
  deriving DecidableEq, Repr

/-- One point of a series (`AreaData`/`WhitespaceData`): a time plus an
optional value (whitespace points carry no value). -/
structure ChartPoint where
  time : TimeVal
  value : Option Int
  deriving DecidableEq, Repr

/-- The canonical string form of a time value, as computed by the chart
code: `JSON.stringify(pt.time)` for object times, `String(pt.time)`
otherwise. -/
def sTime : TimeVal → List Char
  | .num n => intStr n
  | .str s => s.data
  | .bday y m d => sObjGen intStr [("year", y), ("month", m), ("day", d)]

/-- The dedupe key of a point. -/
def timeKey (t : TimeVal) : String := String.mk (sTime t)

/-- JS string comparison `a < b`: lexicographic on code units.  (Lean
`Char`s are unicode scalars; on the values at hand this coincides with
UTF-16 code-unit order.) -/
def charListLtb : List Char → List Char → Bool
  | [], [] => false
  | [], _ :: _ => true
  | _ :: _, [] => false
  | a :: as, b :: bs =>
      if a.toNat < b.toNat then true
      else if b.toNat < a.toNat then false
      else charListLtb as bs

/-- JS `a < b` on strings. -/
def strLtb (a b : String) : Bool := charListLtb a.data b.data

/-- JS `!(b < a)` on strings, i.e. `a ≤ b` in code-unit order. -/
def strLeb (a b : String) : Bool := !strLtb b a

theorem charListLtb_asymm :
    ∀ {a b : List Char}, charListLtb a b = true → charListLtb b a = false := by
  intro a
  induction a with
  | nil =>
      intro b h
      cases b with
      | nil => simp [charListLtb] at h
      | cons bb bs => rfl
  | cons aa as ih =>
      intro b h
      cases b with
      | nil => simp [charListLtb] at h
      | cons bb bs =>
          rw [charListLtb] at h ⊢
          by_cases h₁ : aa.toNat < bb.toNat
          · rw [if_neg (by omega), if_pos h₁]
          · by_cases h₂ : bb.toNat < aa.toNat
            · rw [if_neg h₁, if_pos h₂] at h
              exact absurd h (by simp)
            · rw [if_neg h₁, if_neg h₂] at h
              rw [if_neg h₂, if_neg h₁]
              exact ih h

theorem charListLtb_cotrans :
    ∀ {c a : List Char}, charListLtb c a = true →
      ∀ b : List Char, charListLtb c b = true ∨ charListLtb b a = true := by
  intro c
  induction c with
  | nil =>
      intro a h b
      cases a with
      | nil => simp [charListLtb] at h
      | cons aa as =>
          cases b with
          | nil => exact Or.inr rfl
          | cons bb bs => exact Or.inl rfl
  | cons cc cs ih =>
      intro a h b
      cases a with
      | nil => simp [charListLtb] at h
      | cons aa as =>
          cases b with
          | nil => exact Or.inr rfl
          | cons bb bs =>
              rw [charListLtb] at h
              rw [charListLtb, charListLtb]
              by_cases h₁ : cc.toNat < bb.toNat
              · rw [if_pos h₁]
                exact Or.inl rfl
              · rw [if_neg h₁]
                by_cases h₂ : bb.toNat < cc.toNat
                · rw [if_pos h₂]
                  refine Or.inr ?_
                  by_cases h₃ : cc.toNat < aa.toNat
                  · rw [if_pos (by omega)]
                  · by_cases h₄ : aa.toNat < cc.toNat
                    · rw [if_neg h₃, if_pos h₄] at h
                      exact absurd h (by simp)
                    · rw [if_pos (by omega)]
                · rw [if_neg h₂]
                  by_cases h₃ : cc.toNat < aa.toNat
                  · refine Or.inr ?_
                    rw [if_pos (by omega)]
                  · by_cases h₄ : aa.toNat < cc.toNat
                    · rw [if_neg h₃, if_pos h₄] at h
                      exact absurd h (by simp)
                    · rw [if_neg h₃, if_neg h₄] at h
                      rcases ih h bs with hcb | hba
                      · exact Or.inl hcb
                      · refine Or.inr ?_
                        rw [if_neg (by omega), if_neg (by omega)]
                        exact hba

/-- The sort comparator of `AreaChartComponent`: numeric difference when
both times are numbers, else string comparison of the canonical forms. -/
def cmpTime (a b : TimeVal) : Int :=
  match a, b with
  | .num x, .num y => x - y
  | _, _ =>
      if strLtb (timeKey a) (timeKey b) then -1
      else if strLtb (timeKey b) (timeKey a) then 1 else 0

/-- `comparator(a, b) <= 0`: `a` may come before `b`. -/
def leTime (a b : ChartPoint) : Bool := cmpTime a.time b.time ≤ 0

/-- Dedupe-by-time with last-write-wins (`keyed.set(key, pt)` over a `Map`),
enumerated in first-insertion key order. -/
def dedupePoints (pts : List ChartPoint) : List ChartPoint :=
  (applyAll (fun p => timeKey p.time) (fun _ p => p) [] pts).map Prod.snd

/-- Stable insertion: place `a` before the first element it compares
less-or-equal to. -/
def insertSorted {α : Type _} (le : α → α → Bool) (a : α) : List α → List α
  | [] => [a]
  | b :: bs => if le a b then a :: b :: bs else b :: insertSorted le a bs

/-- A stable sort (model of `Array.prototype.sort`, which is required to be
stable): elements are inserted from the right, so earlier elements end up
before tied later ones. -/
def stableSort {α : Type _} (le : α → α → Bool) (l : List α) : List α :=
  l.foldr (insertSorted le) []

/-- The per-series derived view: dedupe by time key (last write wins), then
sort by the comparator. -/
def seriesView (pts : List ChartPoint) : List ChartPoint :=
  stableSort leTime (dedupePoints pts)

theorem insertSorted_perm {α : Type _} (le : α → α → Bool) (a : α) :
    ∀ l : List α, (insertSorted le a l).Perm (a :: l) := by
  intro l
  induction l with
  | nil => rfl
  | cons b bs ih =>
      rw [insertSorted]
      by_cases h : le a b = true
      · rw [if_pos h]
      · rw [if_neg h]
        exact (List.Perm.cons b ih).trans (List.Perm.swap a b bs)

theorem stableSort_perm {α : Type _} (le : α → α → Bool) (l : List α) :
    (stableSort le l).Perm l := by
  induction l with
  | nil => rfl
  | cons x xs ih =>
      exact (insertSorted_perm le x (stableSort le xs)).trans (List.Perm.cons x ih)

theorem mem_insertSorted {α : Type _} (le : α → α → Bool) (a x : α) (l : List α) :
    x ∈ insertSorted le a l ↔ x = a ∨ x ∈ l := by
  rw [(insertSorted_perm le a l).mem_iff, List.mem_cons]

/-- Inserting into a sorted list keeps it sorted, provided the comparator is
total and transitive on the elements involved. -/
theorem pairwise_insertSorted {α : Type _} (le : α → α → Bool) (P : α → Prop)
    (htot : ∀ x y, P x → P y → le x y = true ∨ le y x = true)
    (htrans : ∀ x y z, P x → P y → P z → le x y = true → le y z = true → le x z = true)
    (a : α) (ha : P a) :
    ∀ l : List α, (∀ x ∈ l, P x) → l.Pairwise (fun x y => le x y = true) →
      (insertSorted le a l).Pairwise (fun x y => le x y = true) := by
  intro l
  induction l with
  | nil => intro _ _; simp [insertSorted]
  | cons b bs ih =>
      intro hP hsorted
      have hPb : P b := hP b (List.mem_cons_self _ _)
      have hPbs : ∀ x ∈ bs, P x := fun x hx => hP x (List.mem_cons_of_mem _ hx)
      rw [insertSorted]
      by_cases h : le a b = true
      · rw [if_pos h]
        refine List.Pairwise.cons ?_ hsorted
        intro c hc
        rcases List.mem_cons.mp hc with rfl | hc
        · exact h
        · exact htrans a b c ha hPb (hPbs c hc) h
            ((List.pairwise_cons.mp hsorted).1 c hc)
      · rw [if_neg h]
        have hba : le b a = true := by
          rcases htot a b ha hPb with hab | hba
          · exact absurd hab h
          · exact hba
        refine List.Pairwise.cons ?_ (ih hPbs (List.pairwise_cons.mp hsorted).2)
        intro c hc
        rcases (mem_insertSorted le a c bs).mp hc with rfl | hc
        · exact hba
        · exact (List.pairwise_cons.mp hsorted).1 c hc

theorem pairwise_stableSort {α : Type _} (le : α → α → Bool) (P : α → Prop)
    (htot : ∀ x y, P x → P y → le x y = true ∨ le y x = true)
    (htrans : ∀ x y z, P x → P y → P z → le x y = true → le y z = true → le x z = true)
    (l : List α) (hP : ∀ x ∈ l, P x) :
    (stableSort le l).Pairwise (fun x y => le x y = true) := by
  induction l with
  | nil => simp [stableSort]
  | cons x xs ih =>
      have hPx : P x := hP x (List.mem_cons_self _ _)
      have hPxs : ∀ y ∈ xs, P y := fun y hy => hP y (List.mem_cons_of_mem _ hy)
      refine pairwise_insertSorted le P htot htrans x hPx (stableSort le xs) ?_ (ih hPxs)
      intro y hy
      exact hPxs y ((stableSort_perm le xs).mem_iff.mp hy)

/-! ## Further association-list helpers used by the claim theorems -/

theorem mem_objUpsert {α : Type _} {m : List (String × α)} {k : String} {v : α}
    {p : String × α} (h : p ∈ objUpsert m k v) : p ∈ m ∨ p = (k, v) := by
  induction m with
  | nil => simpa [objUpsert] using h
  | cons hd rest ih =>
      obtain ⟨k₀, v₀⟩ := hd
      by_cases h₀ : k₀ = k
      · rw [objUpsert, if_pos h₀] at h
        rcases List.mem_cons.mp h with rfl | h
        · exact Or.inr rfl
        · exact Or.inl (List.mem_cons_of_mem _ h)
      · rw [objUpsert, if_neg h₀] at h
        rcases List.mem_cons.mp h with rfl | h
        · exact Or.inl (List.mem_cons_self _ _)
        · rcases ih h with h | h
          · exact Or.inl (List.mem_cons_of_mem _ h)
          · exact Or.inr h

theorem objGet_of_mem_nodup {α : Type _} {m : List (String × α)}
    (hnd : (keys m).Nodup) {k : String} {v : α} (h : (k, v) ∈ m) :
    objGet m k = some v := by
  induction m with
  | nil => simp at h
  | cons hd rest ih =>
      obtain ⟨k₀, v₀⟩ := hd
      rcases List.mem_cons.mp h with heq | h
      · obtain ⟨rfl, rfl⟩ := Prod.mk.injEq .. ▸ heq
        simp [objGet]
      · have hk : k ∈ keys rest := List.mem_map_of_mem Prod.fst h
        have h₀ : k₀ ≠ k := by
          intro hh
          subst hh
          exact (List.nodup_cons.mp hnd).1 hk
        rw [objGet, if_neg h₀]
        exact ih (List.nodup_cons.mp hnd).2 h

theorem filter_key_eq_nil {α : Type _} {m : List (String × α)} {f : String}
    (h : f ∉ keys m) : m.filter (fun p => p.1 = f) = [] := by
  rw [List.filter_eq_nil_iff]
  intro p hp
  simp only [decide_eq_true_eq]
  intro hpf
  exact h (hpf ▸ List.mem_map_of_mem Prod.fst hp)

theorem filter_key_eq_single {α : Type _} {m : List (String × α)} {f : String} {v : α}
    (hnd : (keys m).Nodup) (h : objGet m f = some v) :
    m.filter (fun p => p.1 = f) = [(f, v)] := by
  induction m with
  | nil => simp at h
  | cons hd rest ih =>
      obtain ⟨k₀, v₀⟩ := hd
      by_cases h₀ : k₀ = f
      · subst h₀
        rw [objGet, if_pos rfl] at h
        obtain rfl := Option.some.inj h
        have hnotin : k₀ ∉ keys rest := (List.nodup_cons.mp hnd).1
        simp [List.filter_cons, filter_key_eq_nil hnotin]
      · rw [objGet, if_neg h₀] at h
        simp [List.filter_cons, h₀, ih (List.nodup_cons.mp hnd).2 h]

theorem foldl_const_some_last {α β : Type _} (g : β → α) :
    ∀ (l : List β) (init : Option α),
      l.foldl (fun _ x => some (g x)) init =
        match l.getLast? with
        | some x => some (g x)
        | none => init := by
  intro l
  induction l with
  | nil => intro init; rfl
  | cons x xs ih =>
      intro init
      rw [List.foldl_cons, ih, List.getLast?_cons]
      cases hxs : xs.getLast? with
      | none => simp
      | some y => simp

theorem getLast?_filter_find_reverse {α : Type _} (pred : α → Bool) :
    ∀ (l : List α) (q : α), (l.filter pred).getLast? = some q →
      l.reverse.find? pred = some q := by
  intro l
  induction l with
  | nil => intro q h; simp at h
  | cons x xs ih =>
      intro q h
      rw [List.reverse_cons, List.find?_append]
      rw [List.filter_cons] at h
      by_cases hx : pred x = true
      · rw [if_pos hx, List.getLast?_cons] at h
        obtain rfl := Option.some.inj h
        cases hlast : (xs.filter pred).getLast? with
        | none =>
            have hnil : xs.filter pred = [] := by
              rwa [List.getLast?_eq_none_iff] at hlast
            have hfind : xs.reverse.find? pred = none := by
              rw [List.find?_eq_none]
              intro y hy
              have : y ∈ xs := List.mem_reverse.mp hy
              exact (List.filter_eq_nil_iff.mp hnil) y this
            rw [hfind]
            simp [List.find?, hx]
        | some y =>
            rw [ih y hlast]
            simp
      · rw [if_neg (by simpa using hx)] at h
        rw [ih q h]
        simp

theorem foldl_some_id_last {α : Type _} :
    ∀ (l : List α) (init : Option α),
      l.foldl (fun _ x => some x) init =
        match l.getLast? with
        | some x => some x
        | none => init := by
  intro l
  induction l with
  | nil => intro init; rfl
  | cons x xs ih =>
      intro init
      rw [List.foldl_cons, ih, List.getLast?_cons]
      cases hxs : xs.getLast? with
      | none => simp
      | some y => simp

theorem mem_applyAll_id {β : Type _} (kf : β → String) :
    ∀ (xs : List β) (m : List (String × β)) (p : String × β),
      p ∈ applyAll kf (fun _ x => x) m xs →
      p ∈ m ∨ (p.2 ∈ xs ∧ p.1 = kf p.2) := by
  intro xs
  induction xs with
  | nil => intro m p h; exact Or.inl h
  | cons x xs ih =>
      intro m p h
      rw [applyAll_cons] at h
      rcases ih _ p h with h | h
      · rcases mem_objUpsert h with h | h
        · exact Or.inl h
        · subst h
          exact Or.inr ⟨List.mem_cons_self _ _, rfl⟩
      · exact Or.inr ⟨List.mem_cons_of_mem _ h.1, h.2⟩

/-! ## Claim theorems -/

/-- Batch 1 of the end-to-end scenario: `[{id:1, a:"x"}]`. -/
def batch1 : List Item := [[("id", .num 1), ("a", .str "x")]]

/-- Batch 2 of the end-to-end scenario: `[{id:1, b:"y"}, {id:2, a:"z"}]`. -/
def batch2 : List Item :=
  [[("id", .num 1), ("b", .str "y")], [("id", .num 2), ("a", .str "z")]]

theorem allRows_cons (rf : RowsField) (recs : List RowsField) :
    allRows (rf :: recs) = extractRows rf ++ allRows recs := rfl

/-- Malformed `rows` fields contribute nothing: filtering them out does not
change the flat row list. -/
theorem allRows_wellFormed_filter :
    ∀ recs : List RowsField, allRows recs = allRows (recs.filter rowsWellFormed) := by
  intro recs
  induction recs with
  | nil => rfl
  | cons rf recs ih =>
      cases rf with
      | arr rs =>
          rw [List.filter_cons, if_pos (by rfl), allRows_cons, allRows_cons, ih]
      | missing =>
          rw [List.filter_cons, if_neg (by simp [rowsWellFormed]), allRows_cons]
          simpa [extractRows] using ih
      | nullv =>
          rw [List.filter_cons, if_neg (by simp [rowsWellFormed]), allRows_cons]
          simpa [extractRows] using ih
      | notArray =>
          rw [List.filter_cons, if_neg (by simp [rowsWellFormed]), allRows_cons]
          simpa [extractRows] using ih

/-- C1.  In Accumulate (streaming) mode, merge starts from the previously
persisted collection; each item in each batch, in arrival order, is
shallow-merged into the entry at its key (created if absent), fields not
mentioned by the new item are preserved, mentioned fields take the new
item's value, and no entry is ever deleted because its key is absent from a
later batch; concretely, merging batch1 then batch2 into an empty
collection yields exactly `{1:{id:1,a:"x",b:"y"}, 2:{id:2,a:"z"}}`. -/
theorem C1_accumulate_merge :
    (mergedMapStreaming "id"
        (mergedMapStreaming "id" [] [.arr batch1]) [.arr batch2] =
      [("1", [("id", .num 1), ("a", .str "x"), ("b", .str "y")]),
       ("2", [("id", .num 2), ("a", .str "z")])])
    ∧
    (∀ (idx : String) (prev : Collection) (recs : List RowsField) (k : String),
      k ∈ keys prev → k ∈ keys (mergedMapStreaming idx prev recs))
    ∧
    (∀ (idx : String) (m : Collection) (row : Item),
      objGet (stepRow idx m row) (keyOf idx row) =
        some (mergeFields ((objGet m (keyOf idx row)).getD []) row) ∧
      ∀ k, k ≠ keyOf idx row → objGet (stepRow idx m row) k = objGet m k)
    ∧
    (∀ (e row : Item) (f : String), objGet row f = none →
      objGet (mergeFields e row) f = objGet e f)
    ∧
    (∀ (e row : Item) (f : String) (v : JVal), (keys row).Nodup →
      objGet row f = some v → objGet (mergeFields e row) f = some v) := by
  refine ⟨by decide, ?_, ?_, ?_, ?_⟩
  · intro idx prev recs k hk
    unfold mergedMapStreaming reconcile
    exact (mem_keys_applyAll _ _ _ _ _).mpr (Or.inl hk)
  · intro idx m row
    exact ⟨objGet_upsert_self _ _ _, fun k hk => objGet_upsert_other _ _ hk⟩
  · intro e row f hf
    show objGet (applyAll Prod.fst (fun _ p => p.2) e row) f = objGet e f
    rw [objGet_applyAll, filter_key_eq_nil ((objGet_eq_none_iff _ _).mp hf)]
    rfl
  · intro e row f v hnd hv
    show objGet (applyAll Prod.fst (fun _ p => p.2) e row) f = some v
    rw [objGet_applyAll, filter_key_eq_single hnd hv]
    rfl

theorem C1_accumulate_merge_witness :
    "1" ∈ keys (mergedMapStreaming "id" [("1", [("id", JVal.num 1)])] [.arr []]) ∧
    objGet (mergeFields [("a", JVal.str "x")] [("b", JVal.str "y")]) "a" =
      objGet [("a", JVal.str "x")] "a" ∧
    objGet (mergeFields [("a", JVal.str "x")] [("a", JVal.str "q")]) "a" =
      some (JVal.str "q") :=
  ⟨C1_accumulate_merge.2.1 "id" _ _ "1" (by decide),
   C1_accumulate_merge.2.2.2.1 _ _ "a" (by decide),
   C1_accumulate_merge.2.2.2.2 _ _ "a" _ (by decide) (by decide)⟩

/-- C2.  In Snapshot (HTTP) mode, the previous collection is ignored
entirely, the result is built fresh from the current batches only (so keys
absent from the current batches are absent from the result — earlier
batches' items are discarded), and within one merge call later items of a
repeated key shallow-merge over earlier ones; concretely, merging batch2
after batch1 has been replaced leaves only batch2's data. -/
theorem C2_snapshot_merge :
    (∀ (idx : String) (prev₁ prev₂ : Collection) (recs : List RowsField),
      mergedRows idx true prev₁ recs = mergedRows idx true prev₂ recs)
    ∧
    (∀ (idx : String) (recs : List RowsField) (k : String),
      (∀ r ∈ allRows recs, keyOf idx r ≠ k) →
      objGet (mergedMapHttp idx recs) k = none)
    ∧
    (∀ (idx : String) (recs : List RowsField) (k : String),
      objGet (mergedMapHttp idx recs) k =
        ((allRows recs).filter (fun r => keyOf idx r = k)).foldl
          (fun e r => some (mergeFields (e.getD []) r)) none)
    ∧
    (mergedRows "id" true (mergedMapHttp "id" [.arr batch1]) [.arr batch2] =
      [[("id", .num 1), ("b", .str "y")], [("id", .num 2), ("a", .str "z")]]) := by
  refine ⟨fun idx prev₁ prev₂ recs => rfl, ?_, ?_, by decide⟩
  · intro idx recs k hk
    show objGet (reconcile idx [] (allRows recs)) k = none
    rw [reconcile_objGet]
    have hnil : (allRows recs).filter (fun r => keyOf idx r = k) = [] := by
      rw [List.filter_eq_nil_iff]
      intro r hr
      simpa using hk r hr
    rw [hnil]
    rfl
  · intro idx recs k
    exact reconcile_objGet idx [] (allRows recs) k

theorem C2_snapshot_merge_witness :
    objGet (mergedMapHttp "id" [.arr batch2]) "7" = none :=
  C2_snapshot_merge.2.1 "id" [.arr batch2] "7" (by decide)

/-- C3.  Accumulate-mode merge is idempotent over batches: for every
(well-formed) previous collection and every batch, merging the batch twice
— within one call's batch sequence or in two successive calls — yields a
collection structurally equal to merging it once.  (Well-formedness only
records that JS objects cannot carry duplicate keys.) -/
theorem C3_accumulate_idempotent :
    ∀ (idx : String) (prev : Collection) (batch : List Item), CollWF prev →
      mergedMapStreaming idx prev [.arr batch, .arr batch] =
        mergedMapStreaming idx prev [.arr batch] ∧
      mergedMapStreaming idx (mergedMapStreaming idx prev [.arr batch]) [.arr batch] =
        mergedMapStreaming idx prev [.arr batch] := by
  intro idx prev batch hwf
  have hall : allRows [RowsField.arr batch] = batch := by
    simp [allRows, extractRows]
  have hall2 : allRows [RowsField.arr batch, RowsField.arr batch] = batch ++ batch := by
    simp [allRows, extractRows]
  have hone : mergedMapStreaming idx prev [.arr batch] = reconcile idx prev batch := by
    rw [mergedMapStreaming, hall]
  constructor
  · rw [mergedMapStreaming, hall2, hone]
    show applyAll (keyOf idx) (fun e row => mergeFields (e.getD []) row) prev
        (batch ++ batch) = reconcile idx prev batch
    rw [applyAll_append]
    exact reconcile_replay idx batch hwf
  · rw [hone, mergedMapStreaming, hall]
    exact reconcile_replay idx batch hwf

theorem C3_accumulate_idempotent_witness :
    mergedMapStreaming "id" [("1", [("id", JVal.num 1)])] [.arr batch1, .arr batch1] =
      mergedMapStreaming "id" [("1", [("id", JVal.num 1)])] [.arr batch1] ∧
    mergedMapStreaming "id"
        (mergedMapStreaming "id" [("1", [("id", JVal.num 1)])] [.arr batch1])
        [.arr batch1] =
      mergedMapStreaming "id" [("1", [("id", JVal.num 1)])] [.arr batch1] :=
  C3_accumulate_idempotent "id" [("1", [("id", JVal.num 1)])] batch1 (by decide)

/-- C10.  Merge is total over malformed batches: a record whose `rows`
field is missing, null, or not an array contributes zero items, and the
merged result (in either mode) equals the merge of the remaining
well-formed records. -/
theorem C10_malformed_records :
    (∀ rf : RowsField, rowsWellFormed rf = false → extractRows rf = [])
    ∧
    (∀ recs : List RowsField, allRows recs = allRows (recs.filter rowsWellFormed))
    ∧
    (∀ (idx : String) (http : Bool) (prev : Collection) (recs : List RowsField),
      mergedRows idx http prev recs =
        mergedRows idx http prev (recs.filter rowsWellFormed)) := by
  refine ⟨?_, allRows_wellFormed_filter, ?_⟩
  · intro rf h
    cases rf <;> first
      | rfl
      | simp [rowsWellFormed] at h
  · intro idx http prev recs
    cases http with
    | true =>
        show (reconcile idx [] (allRows recs)).map Prod.snd =
          (reconcile idx [] (allRows (recs.filter rowsWellFormed))).map Prod.snd
        rw [← allRows_wellFormed_filter]
    | false =>
        show (reconcile idx prev (allRows recs)).map Prod.snd =
          (reconcile idx prev (allRows (recs.filter rowsWellFormed))).map Prod.snd
        rw [← allRows_wellFormed_filter]

theorem C10_malformed_records_witness :
    extractRows .notArray = [] :=
  C10_malformed_records.1 .notArray (by decide)

/-- C4.  Key extraction is total and deterministic: the key is the
canonical string of `item[field]` when present and not null, otherwise the
canonical serialization of the whole item; structurally identical items
lacking the field get the same key, and different items lacking the field
get different keys. -/
theorem C4_key_extraction :
    ∀ f : String,
      (∀ (it : Item) (v : JVal), objGet it f = some v → v ≠ .null →
        keyOf f it = jsToString v)
      ∧
      (∀ it : Item, objGet it f = none → keyOf f it = stringifyItem it)
      ∧
      (∀ it : Item, objGet it f = some .null → keyOf f it = stringifyItem it)
      ∧
      (∀ it₁ it₂ : Item, it₁ = it₂ → keyOf f it₁ = keyOf f it₂)
      ∧
      (∀ it₁ it₂ : Item, objGet it₁ f = none → objGet it₂ f = none →
        keyOf f it₁ = keyOf f it₂ → it₁ = it₂) := by
  intro f
  refine ⟨?_, ?_, ?_, fun it₁ it₂ h => by rw [h], ?_⟩
  · intro it v hv hnn
    unfold keyOf
    rw [hv]
    simp [hnn]
  · intro it hn
    unfold keyOf
    rw [hn]
  · intro it hnull
    unfold keyOf
    rw [hnull]
    simp
  · intro it₁ it₂ h₁ h₂ hk
    unfold keyOf at hk
    rw [h₁, h₂] at hk
    exact stringifyItem_inj hk

theorem C4_key_extraction_witness :
    keyOf "id" [("id", JVal.num 7)] = jsToString (JVal.num 7) ∧
    keyOf "id" [("a", JVal.str "x")] = stringifyItem [("a", JVal.str "x")] ∧
    keyOf "id" [("id", JVal.null)] = stringifyItem [("id", JVal.null)] ∧
    ([("a", JVal.str "x")] : Item) = [("a", JVal.str "x")] :=
  ⟨(C4_key_extraction "id").1 _ _ (by decide) (by decide),
   (C4_key_extraction "id").2.1 _ (by decide),
   (C4_key_extraction "id").2.2.1 _ (by decide),
   (C4_key_extraction "id").2.2.2.2 _ _ (by decide) (by decide) (by decide)⟩

/-- C5, counterexample.  Calling `save` twice with a collection structurally
equal to the initially stored value performs zero underlying writes, not
exactly one: the claim's "exactly one underlying storage write" fails when
the stored value already matches. -/
theorem C5_write_suppression_counterexample :
    (save [("1", [("id", JVal.num 1)])] [("1", [("id", JVal.num 1)])]).2 = false ∧
    (save (save [("1", [("id", JVal.num 1)])] [("1", [("id", JVal.num 1)])]).1
        [("1", [("id", JVal.num 1)])]).2 = false := by
  decide

/-- C5, amended.  `save` is idempotent and suppresses the underlying write
whenever the canonical serialization of the collection equals that of the
stored value; two saves of structurally equal collections perform at most
one underlying write — exactly one when the stored serialization initially
differs, zero when it already matches. -/
theorem C5_write_suppression :
    ∀ (stored c₁ c₂ : Collection), c₁ = c₂ →
      (stringifyColl c₁ = stringifyColl stored → save stored c₁ = (stored, false)) ∧
      (save (save stored c₁).1 c₂).2 = false ∧
      ((save stored c₁).2.toNat + (save (save stored c₁).1 c₂).2.toNat =
        if stringifyColl c₁ = stringifyColl stored then 0 else 1) := by
  intro stored c₁ c₂ h
  subst h
  by_cases hs : stringifyColl c₁ = stringifyColl stored
  · refine ⟨fun _ => by rw [save, if_pos hs], ?_, ?_⟩
    · simp [save, hs]
    · simp [save, hs]
  · refine ⟨fun hc => absurd hc hs, ?_, ?_⟩
    · simp [save, hs]
    · simp [save, hs]

theorem C5_write_suppression_witness :
    (save [] [("1", [("id", JVal.num 1)])]).2.toNat +
      (save (save [] [("1", [("id", JVal.num 1)])]).1
        [("1", [("id", JVal.num 1)])]).2.toNat =
      if stringifyColl [("1", [("id", JVal.num 1)])] = stringifyColl [] then 0 else 1 :=
  (C5_write_suppression [] _ _ rfl).2.2

/-- C6.  The effective page is always clamped into
`[1, max(1, ceil(count / pageSize))]`; with `count = 25`, `pageSize = 10` a
stored page of 10 is corrected to 3, and with `count = 0` it is corrected
to 1. -/
theorem C6_page_clamp :
    (∀ (count : Nat) (storedPageSize : Option Int) (settingPageSize : Option Nat)
        (storedPage : Int),
      1 ≤ clampPage count (effectivePageSize storedPageSize settingPageSize)
            (effectivePage storedPage) ∧
      clampPage count (effectivePageSize storedPageSize settingPageSize)
            (effectivePage storedPage) ≤
        totalPages count (effectivePageSize storedPageSize settingPageSize))
    ∧ clampPage 25 10 (effectivePage 10) = 3
    ∧ clampPage 0 10 (effectivePage 10) = 1 := by
  refine ⟨?_, by decide, by decide⟩
  intro count sps setps sp
  have hp : 1 ≤ effectivePage sp := by
    unfold effectivePage
    by_cases h : 0 < sp
    · rw [if_pos h]
      omega
    · rw [if_neg h]
  have htp : 1 ≤ totalPages count (effectivePageSize sps setps) :=
    Nat.le_max_left 1 _
  unfold clampPage
  by_cases h : totalPages count (effectivePageSize sps setps) < effectivePage sp
  · rw [if_pos h]
    exact ⟨htp, Nat.le_refl _⟩
  · rw [if_neg h]
    exact ⟨hp, Nat.le_of_not_lt h⟩

/-- C7.  The derived view: all rows (in enumeration order) when pagination
is explicitly disabled; otherwise — including when the setting is left
unspecified — exactly the slice of indices
`[(page-1)*pageSize, page*pageSize)` of the enumeration; concretely, the
end-to-end scenario's collection with `pageSize = 1` has page-2 view
`[{id:2, a:"z"}]`. -/
theorem C7_paginated_view :
    (∀ (ep : Option Bool) (page pageSize : Nat) (rows : List Item),
      (ep = some false → visibleRows ep page pageSize rows = rows) ∧
      (ep ≠ some false →
        (∀ i : Nat, (visibleRows ep page pageSize rows)[i]? =
          if i < pageSize then rows[(page - 1) * pageSize + i]? else none) ∧
        (1 ≤ page → visibleRows ep page pageSize rows =
          (rows.take (page * pageSize)).drop ((page - 1) * pageSize))))
    ∧ visibleRows none 2 1
        ((mergedMapStreaming "id"
          (mergedMapStreaming "id" [] [.arr batch1]) [.arr batch2]).map Prod.snd) =
        [[("id", .num 2), ("a", .str "z")]] := by
  refine ⟨?_, by decide⟩
  intro ep page pageSize rows
  constructor
  · intro h
    rw [visibleRows, if_pos h]
  · intro h
    have hvr : visibleRows ep page pageSize rows =
        (rows.drop ((page - 1) * pageSize)).take pageSize := by
      rw [visibleRows, if_neg h, jsSlice, Nat.add_sub_cancel_left]
    constructor
    · intro i
      rw [hvr, List.getElem?_take]
      by_cases hi : i < pageSize
      · rw [if_pos hi, if_pos hi, List.getElem?_drop]
      · rw [if_neg hi, if_neg hi]
    · intro hp
      rw [hvr, List.drop_take]
      obtain ⟨q, rfl⟩ := Nat.exists_eq_add_of_le hp
      congr 1
      simp [Nat.add_mul]

theorem C7_paginated_view_witness :
    visibleRows (some false) 1 10 batch2 = batch2 ∧
    (visibleRows none 2 1 batch2)[0]? =
      (if 0 < 1 then batch2[(2 - 1) * 1 + 0]? else none) ∧
    visibleRows none 2 1 batch2 = (batch2.take (2 * 1)).drop ((2 - 1) * 1) :=
  ⟨(C7_paginated_view.1 (some false) 1 10 batch2).1 rfl,
   ((C7_paginated_view.1 none 2 1 batch2).2 (by decide)).1 0,
   ((C7_paginated_view.1 none 2 1 batch2).2 (by decide)).2 (by decide)⟩

theorem dedupe_aux_sublist (idx : String) :
    ∀ (rows : List Item) (seen : List String),
      (dedupeByKeyAux idx seen rows).Sublist rows := by
  intro rows
  induction rows with
  | nil => intro seen; exact List.Sublist.refl []
  | cons x rest ih =>
      intro seen
      rw [dedupeByKeyAux]
      by_cases hx : keyOf idx x ∈ seen
      · rw [if_pos hx]
        exact (ih seen).cons x
      · rw [if_neg hx]
        exact (ih _).cons₂ x

theorem dedupe_aux_key_not_seen (idx : String) :
    ∀ (rows : List Item) (seen : List String) (r : Item),
      r ∈ dedupeByKeyAux idx seen rows → keyOf idx r ∉ seen := by
  intro rows
  induction rows with
  | nil => intro seen r h; simp [dedupeByKeyAux] at h
  | cons x rest ih =>
      intro seen r h
      rw [dedupeByKeyAux] at h
      by_cases hx : keyOf idx x ∈ seen
      · rw [if_pos hx] at h
        exact ih seen r h
      · rw [if_neg hx] at h
        rcases List.mem_cons.mp h with rfl | h
        · exact hx
        · intro hseen
          exact ih _ r h (List.mem_cons_of_mem _ hseen)

theorem dedupe_aux_nodup (idx : String) :
    ∀ (rows : List Item) (seen : List String),
      ((dedupeByKeyAux idx seen rows).map (keyOf idx)).Nodup := by
  intro rows
  induction rows with
  | nil => intro seen; simp [dedupeByKeyAux]
  | cons x rest ih =>
      intro seen
      rw [dedupeByKeyAux]
      by_cases hx : keyOf idx x ∈ seen
      · rw [if_pos hx]
        exact ih seen
      · rw [if_neg hx]
        rw [List.map_cons, List.nodup_cons]
        refine ⟨?_, ih _⟩
        intro hmem
        rcases List.mem_map.mp hmem with ⟨r, hr, hkr⟩
        exact dedupe_aux_key_not_seen idx rest _ r hr
          (hkr ▸ List.mem_cons_self _ _)

theorem dedupe_aux_find (idx : String) :
    ∀ (rows : List Item) (seen : List String) (r : Item),
      r ∈ dedupeByKeyAux idx seen rows →
      rows.find? (fun x => keyOf idx x == keyOf idx r) = some r := by
  intro rows
  induction rows with
  | nil => intro seen r h; simp [dedupeByKeyAux] at h
  | cons x rest ih =>
      intro seen r h
      rw [dedupeByKeyAux] at h
      by_cases hx : keyOf idx x ∈ seen
      · rw [if_pos hx] at h
        have hne : keyOf idx x ≠ keyOf idx r := by
          intro hh
          exact dedupe_aux_key_not_seen idx rest seen r h (hh ▸ hx)
        rw [List.find?_cons_of_neg _ (by simpa using hne)]
        exact ih seen r h
      · rw [if_neg hx] at h
        rcases List.mem_cons.mp h with rfl | h
        · rw [List.find?_cons_of_pos _ (by simp)]
        · have hne : keyOf idx x ≠ keyOf idx r := by
            intro hh
            exact dedupe_aux_key_not_seen idx rest _ r h
              (hh ▸ List.mem_cons_self _ _)
          rw [List.find?_cons_of_neg _ (by simpa using hne)]
          exact ih _ r h

theorem dedupe_aux_covers (idx : String) :
    ∀ (rows : List Item) (seen : List String) (r : Item), r ∈ rows →
      keyOf idx r ∈ seen ∨
      ∃ r' ∈ dedupeByKeyAux idx seen rows, keyOf idx r' = keyOf idx r := by
  intro rows
  induction rows with
  | nil => intro seen r h; simp at h
  | cons x rest ih =>
      intro seen r h
      rw [dedupeByKeyAux]
      by_cases hx : keyOf idx x ∈ seen
      · rw [if_pos hx]
        rcases List.mem_cons.mp h with rfl | h
        · exact Or.inl hx
        · exact ih seen r h
      · rw [if_neg hx]
        rcases List.mem_cons.mp h with heq | h
        · exact Or.inr ⟨x, List.mem_cons_self _ _, by rw [heq]⟩
        · rcases ih (keyOf idx x :: seen) r h with hmem | ⟨r', hr', hkr'⟩
          · rcases List.mem_cons.mp hmem with heq | hmem
            · exact Or.inr ⟨x, List.mem_cons_self _ _, heq.symm⟩
            · exact Or.inl hmem
          · exact Or.inr ⟨r', List.mem_cons_of_mem _ hr', hkr'⟩

/-- C9.  The final key-based deduplication pass (first occurrence wins): the
result preserves the input's relative order (it is a sublist), contains each
key at most once, consists exactly of the first occurrence of each key, and
every input key is represented. -/
theorem C9_stability_guard :
    ∀ (idx : String) (rows : List Item),
      (dedupedVisibleRows idx rows).Sublist rows ∧
      ((dedupedVisibleRows idx rows).map (keyOf idx)).Nodup ∧
      (∀ r ∈ dedupedVisibleRows idx rows,
        rows.find? (fun x => keyOf idx x == keyOf idx r) = some r) ∧
      (∀ r ∈ rows, ∃ r' ∈ dedupedVisibleRows idx rows,
        keyOf idx r' = keyOf idx r) := by
  intro idx rows
  refine ⟨dedupe_aux_sublist idx rows [], dedupe_aux_nodup idx rows [],
    fun r h => dedupe_aux_find idx rows [] r h, fun r h => ?_⟩
  rcases dedupe_aux_covers idx rows [] r h with hmem | hex
  · simp at hmem
  · exact hex

theorem C9_stability_guard_witness :
    batch2.find?
        (fun x => keyOf "id" x == keyOf "id" [("id", JVal.num 2), ("a", JVal.str "z")]) =
      some [("id", JVal.num 2), ("a", JVal.str "z")] :=
  (C9_stability_guard "id" batch2).2.2.1 _ (by decide)

/-- Whether a time value is a JS number. -/
def isNumT : TimeVal → Bool
  | .num _ => true
  | _ => false

theorem mem_dedupePoints {pts : List ChartPoint} {q : ChartPoint}
    (h : q ∈ dedupePoints pts) : q ∈ pts := by
  rcases List.mem_map.mp h with ⟨e, he, rfl⟩
  rcases mem_applyAll_id (fun p => timeKey p.time) pts [] e he with h | h
  · simp at h
  · exact h.1

theorem dedupePoints_entry_key {pts : List ChartPoint} {e : String × ChartPoint}
    (he : e ∈ applyAll (fun p => timeKey p.time) (fun _ p => p) [] pts) :
    e.1 = timeKey e.2.time := by
  rcases mem_applyAll_id (fun p => timeKey p.time) pts [] e he with h | h
  · simp at h
  · exact h.2

theorem foldl_some_none_getLast {α : Type _} (l : List α) :
    l.foldl (fun _ x => some x) none = l.getLast? := by
  rw [foldl_some_id_last]
  cases l.getLast? <;> rfl

theorem dedupePoints_objGet (pts : List ChartPoint) (k : String) :
    objGet (applyAll (fun p => timeKey p.time) (fun _ p => p) [] pts) k =
      (pts.filter (fun p => timeKey p.time = k)).getLast? := by
  rw [objGet_applyAll, objGet_nil]
  exact foldl_some_none_getLast _

theorem dedupePoints_nodup_keys (pts : List ChartPoint) :
    ((dedupePoints pts).map (fun p => timeKey p.time)).Nodup := by
  unfold dedupePoints
  rw [List.map_map]
  have hmap : (applyAll (fun p => timeKey p.time) (fun _ p => p) [] pts).map
        ((fun p => timeKey p.time) ∘ Prod.snd) =
      keys (applyAll (fun p => timeKey p.time) (fun _ p => p) [] pts) := by
    refine List.map_congr_left (fun e he => ?_)
    exact (dedupePoints_entry_key he).symm
  rw [hmap]
  exact nodup_keys_applyAll _ _ _ List.nodup_nil

theorem dedupePoints_covers {pts : List ChartPoint} {p : ChartPoint}
    (hp : p ∈ pts) : ∃ q ∈ dedupePoints pts, timeKey q.time = timeKey p.time := by
  have hk : timeKey p.time ∈
      keys (applyAll (fun p => timeKey p.time) (fun _ p => p) [] pts) :=
    (mem_keys_applyAll _ _ _ _ _).mpr (Or.inr (List.mem_map_of_mem _ hp))
  rcases List.mem_map.mp hk with ⟨e, he, hke⟩
  refine ⟨e.2, List.mem_map_of_mem Prod.snd he, ?_⟩
  rw [← dedupePoints_entry_key he, hke]

theorem dedupePoints_last_write_wins {pts : List ChartPoint} {q : ChartPoint}
    (h : q ∈ dedupePoints pts) :
    pts.reverse.find? (fun p => timeKey p.time = timeKey q.time) = some q := by
  rcases List.mem_map.mp h with ⟨e, he, rfl⟩
  have hkey : e.1 = timeKey e.2.time := dedupePoints_entry_key he
  have hnd : (keys (applyAll (fun p => timeKey p.time) (fun _ p => p) [] pts)).Nodup :=
    nodup_keys_applyAll _ _ _ List.nodup_nil
  have hget : objGet (applyAll (fun p => timeKey p.time) (fun _ p => p) [] pts) e.1 =
      some e.2 :=
    objGet_of_mem_nodup hnd (by simpa using he)
  rw [hkey, dedupePoints_objGet] at hget
  exact getLast?_filter_find_reverse _ pts _ hget

theorem cmpTime_non_num {a b : TimeVal} (h : isNumT a = false ∨ isNumT b = false) :
    cmpTime a b =
      if strLtb (timeKey a) (timeKey b) then -1
      else if strLtb (timeKey b) (timeKey a) then 1 else 0 := by
  cases a <;> cases b <;> first
    | rfl
    | (rcases h with h | h <;> simp [isNumT] at h)

theorem leTime_non_num {p q : ChartPoint}
    (h : isNumT p.time = false ∨ isNumT q.time = false) :
    (leTime p q = true ↔ strLtb (timeKey q.time) (timeKey p.time) = false) := by
  rw [leTime, cmpTime_non_num h]
  by_cases h₁ : strLtb (timeKey p.time) (timeKey q.time) = true
  · rw [if_pos h₁]
    constructor
    · intro _
      exact charListLtb_asymm h₁
    · intro _
      decide
  · rw [if_neg h₁]
    by_cases h₂ : strLtb (timeKey q.time) (timeKey p.time) = true
    · rw [if_pos h₂]
      constructor
      · intro hh
        exact absurd hh (by decide)
      · intro hh
        rw [h₂] at hh
        exact absurd hh (by simp)
    · rw [if_neg h₂]
      constructor
      · intro _
        cases hx : strLtb (timeKey q.time) (timeKey p.time) with
        | false => rfl
        | true => exact absurd hx h₂
      · intro _
        decide

/-- C8.  The per-series chart view first dedupes by time key with
last-write-wins, then sorts ascending by key — numerically when both keys
are numbers, else lexicographically on the canonical string forms — and
retains malformed (non-numeric) time values instead of dropping them;
concretely, numeric keys `[3,1,2]` come out `[1,2,3]` and string keys
`["2024-01-02","2024-01-01"]` come out sorted. -/
theorem C8_series_view :
    (∀ pts : List ChartPoint,
      (seriesView pts).Perm (dedupePoints pts) ∧
      ((dedupePoints pts).map (fun p => timeKey p.time)).Nodup ∧
      (∀ p ∈ pts, ∃ q ∈ dedupePoints pts, timeKey q.time = timeKey p.time) ∧
      (∀ q ∈ dedupePoints pts,
        pts.reverse.find? (fun p => timeKey p.time = timeKey q.time) = some q) ∧
      ((∀ p ∈ pts, isNumT p.time = true) →
        (seriesView pts).Pairwise (fun p q =>
          ∀ x y, p.time = .num x → q.time = .num y → x ≤ y)) ∧
      ((∀ p ∈ pts, isNumT p.time = false) →
        (seriesView pts).Pairwise (fun p q =>
          strLeb (timeKey p.time) (timeKey q.time) = true)))
    ∧
    (seriesView [⟨.num 3, some 10⟩, ⟨.num 1, some 20⟩, ⟨.num 2, some 30⟩] =
      [⟨.num 1, some 20⟩, ⟨.num 2, some 30⟩, ⟨.num 3, some 10⟩])
    ∧
    (seriesView [⟨.str "2024-01-02", some 1⟩, ⟨.str "2024-01-01", some 2⟩] =
      [⟨.str "2024-01-01", some 2⟩, ⟨.str "2024-01-02", some 1⟩]) := by
  refine ⟨?_, by decide, by decide⟩
  intro pts
  have hmem : ∀ x ∈ seriesView pts, x ∈ pts := by
    intro x hx
    exact mem_dedupePoints ((stableSort_perm leTime (dedupePoints pts)).mem_iff.mp hx)
  refine ⟨stableSort_perm _ _, dedupePoints_nodup_keys pts,
    fun p hp => dedupePoints_covers hp,
    fun q hq => dedupePoints_last_write_wins hq, ?_, ?_⟩
  · intro hall
    have hP : ∀ x ∈ dedupePoints pts, isNumT x.time = true :=
      fun x hx => hall x (mem_dedupePoints hx)
    have hsorted := pairwise_stableSort leTime (fun x => isNumT x.time = true)
      ?_ ?_ (dedupePoints pts) hP
    · refine hsorted.imp ?_
      intro a b hab x y hax hby
      rw [leTime, hax, hby] at hab
      have : cmpTime (.num x) (.num y) ≤ 0 := by
        simpa using hab
      rw [cmpTime] at this
      omega
    · intro a b ha hb
      cases hat : a.time with
      | num x =>
          cases hbt : b.time with
          | num y =>
              rw [leTime, leTime, hat, hbt]
              simp only [cmpTime, decide_eq_true_eq]
              omega
          | str s => rw [hbt] at hb; simp [isNumT] at hb
          | bday p q r => rw [hbt] at hb; simp [isNumT] at hb
      | str s => rw [hat] at ha; simp [isNumT] at ha
      | bday p q r => rw [hat] at ha; simp [isNumT] at ha
    · intro a b c ha hb hc hab hbc
      cases hat : a.time with
      | num x =>
          cases hbt : b.time with
          | num y =>
              cases hct : c.time with
              | num z =>
                  rw [leTime, hat, hbt] at hab
                  rw [leTime, hbt, hct] at hbc
                  rw [leTime, hat, hct]
                  simp only [cmpTime, decide_eq_true_eq] at hab hbc ⊢
                  omega
              | str s => rw [hct] at hc; simp [isNumT] at hc
              | bday p q r => rw [hct] at hc; simp [isNumT] at hc
          | str s => rw [hbt] at hb; simp [isNumT] at hb
          | bday p q r => rw [hbt] at hb; simp [isNumT] at hb
      | str s => rw [hat] at ha; simp [isNumT] at ha
      | bday p q r => rw [hat] at ha; simp [isNumT] at ha
  · intro hall
    have hP : ∀ x ∈ dedupePoints pts, isNumT x.time = false :=
      fun x hx => hall x (mem_dedupePoints hx)
    have hsorted := pairwise_stableSort leTime (fun x => isNumT x.time = false)
      ?_ ?_ (dedupePoints pts) hP
    · refine hsorted.imp_of_mem ?_
      intro a b ha hb hab
      have hlt := (leTime_non_num (Or.inl (hall a (hmem a ha)))).mp hab
      rw [strLeb, hlt]
      rfl
    · intro a b ha hb
      cases hab : strLtb (timeKey b.time) (timeKey a.time) with
      | false => exact Or.inl ((leTime_non_num (Or.inl ha)).mpr hab)
      | true => exact Or.inr ((leTime_non_num (Or.inl hb)).mpr (charListLtb_asymm hab))
    · intro a b c ha hb hc hab hbc
      have h₁ := (leTime_non_num (Or.inl ha)).mp hab
      have h₂ := (leTime_non_num (Or.inl hb)).mp hbc
      refine (leTime_non_num (Or.inl ha)).mpr ?_
      cases hca : strLtb (timeKey c.time) (timeKey a.time) with
      | false => rfl
      | true =>
          rcases charListLtb_cotrans hca (timeKey b.time).data with hcb | hba
          · have h₂' : charListLtb (timeKey c.time).data (timeKey b.time).data = false := h₂
            rw [h₂'] at hcb
            exact absurd hcb (by simp)
          · have h₁' : charListLtb (timeKey b.time).data (timeKey a.time).data = false := h₁
            rw [h₁'] at hba
            exact absurd hba (by simp)

theorem C8_series_view_witness :
    (seriesView [⟨.num 3, some 10⟩, ⟨.num 1, some 20⟩]).Pairwise
      (fun p q => ∀ x y, p.time = .num x → q.time = .num y → x ≤ y) ∧
    (seriesView [⟨.str "b", none⟩, ⟨.str "a", none⟩]).Pairwise
      (fun p q => strLeb (timeKey p.time) (timeKey q.time) = true) ∧
    ([⟨TimeVal.num 3, some 10⟩, ⟨TimeVal.num 1, some 20⟩] : List ChartPoint).reverse.find?
        (fun p => timeKey p.time = timeKey (TimeVal.num 1)) =
      some ⟨TimeVal.num 1, some 20⟩ :=
  ⟨((C8_series_view.1 [⟨.num 3, some 10⟩, ⟨.num 1, some 20⟩]).2.2.2.2.1 (by decide)),
   ((C8_series_view.1 [⟨.str "b", none⟩, ⟨.str "a", none⟩]).2.2.2.2.2 (by decide)),
   ((C8_series_view.1 [⟨.num 3, some 10⟩, ⟨.num 1, some 20⟩]).2.2.2.1
      ⟨.num 1, some 20⟩ (by decide))⟩

end Cereon
